import Mathlib

/-!
Shallow embedding of `src/multi/knowledge_base.py`: an in-memory vector
store with document chunking, embedding-based ingestion and cosine-similarity
retrieval.  Python strings are modelled as `List Char`; Python floats are
idealised as real numbers (stored vectors, which come from an external
embedding provider, are kept rational so that store operations stay
executable; scores, which involve square roots, live in `ℝ`).  The external
embedding provider is an injected function that may fail, modelling the
OpenAI call raising an exception.
-/

namespace KB

/-- A document text: Python `str` modelled as a list of characters. -/
abbrev Text := List Char

/-- A chunk dict as produced by `_chunk`:
`{"content": …, "source": …, "title": …, "chunk_index": …}`. -/
structure Chunk where
  content : Text
  source : String
  title : String
  chunk_index : ℕ
deriving DecidableEq, Inhabited

/-- The `while i < len(text)` loop of `_chunk` (lines 81–87), with explicit
fuel standing for the number of remaining loop iterations the model is willing
to execute; `none` means the fuel ran out, i.e. the concrete loop would still
be running.  Each iteration takes the window `text[i:end]` with
`end = min(i + chunk_size, len(text))`, appends it as a chunk, and advances to
`i = end - overlap` when `end < len(text)` and to `len(text)` otherwise.
(The `ℕ` subtraction `end - overlap` agrees with Python's `end - overlap`
whenever `overlap ≤ end`, which holds in every branch exercised below.) -/
def chunkLoop (text : Text) (source title : String) (chunk_size overlap : ℕ) :
    ℕ → ℕ → ℕ → Option (List Chunk)
  | 0, _, _ => none
  | fuel + 1, i, idx =>
    if i < text.length then
      let e := min (i + chunk_size) text.length
      let c : Chunk := ⟨(text.drop i).take (e - i), source, title, idx⟩
      let i2 := if e < text.length then e - overlap else text.length
      match chunkLoop text source title chunk_size overlap fuel i2 (idx + 1) with
      | none => none
      | some l => some (c :: l)
    else
      some []

/-- The function `_chunk(text, source, title, chunk_size, overlap)`
(lines 78–87): run the
window loop from `i = 0`, `idx = 0`.  `text.length + 1` units of fuel are
enough for the loop to finish whenever it terminates at all, because each
iteration moves `i` strictly forward when `chunk_size > overlap`. -/
def chunk (text : Text) (source title : String) (chunk_size overlap : ℕ) :
    Option (List Chunk) :=
  chunkLoop text source title chunk_size overlap (text.length + 1) 0 0

/-- The function `_chunk` specialised to the terminating case: the chunk list itself
(used by `index`, which always calls `_chunk` with the defaults
`chunk_size = 800 > 100 = overlap`). -/
def chunkD (text : Text) (source title : String) (chunk_size overlap : ℕ) :
    List Chunk :=
  (chunk text source title chunk_size overlap).getD []

/-- A stored entry: a chunk dict augmented with its `"vector"` key
(`_embed_and_store`, lines 133–138). -/
structure Entry where
  content : Text
  source : String
  title : String
  chunk_index : ℕ
  vector : List ℚ
deriving DecidableEq, Inhabited

/-- The store entry `entry = c.copy(); entry["vector"] = v` for a chunk `c`. -/
def toEntry (c : Chunk) (v : List ℚ) : Entry :=
  ⟨c.content, c.source, c.title, c.chunk_index, v⟩

/-- The external embedding provider (`_embed`): one batched call mapping a
list of texts to a list of vectors, or failing with a provider error. -/
def Embedder (ε : Type) : Type := List Text → Except ε (List (List ℚ))

/-- The function `_embed_and_store(chunks)` (lines 133–138) against store `store`:
embed all chunk contents in one provider call, then append each chunk,
augmented with its vector, to the store.  A provider failure propagates
before anything is appended; `zip` truncates at the shorter list exactly as
Python's `zip` does. -/
def embedAndStore {ε : Type} (embed : Embedder ε) (chunks : List Chunk)
    (store : List Entry) : Except ε (List Entry) :=
  match embed (chunks.map Chunk.content) with
  | .error err => .error err
  | .ok vectors => .ok (store ++ List.zipWith toEntry chunks vectors)

/-- An input to `index`, already resolved to its text and metadata: `index`
(lines 162–173) resolves each path against the filesystem to a
`(text, source, title)` triple — either the file's contents with its path and
basename, or the raw string with `"inline"` / `"Inline Text"`.  That
resolution is environment I/O and is abstracted here: a `Doc` is the resolved
triple. -/
structure Doc where
  text : Text
  source : String
  title : String

/-- The call `_chunk(text, source, title)` with the default parameters used by
`index` (line 172): `chunk_size = 800`, `overlap = 100`. -/
def chunkDoc (d : Doc) : List Chunk :=
  chunkD d.text d.source d.title 800 100

/-- The function `index(paths)` (lines 162–173) threaded over an explicit store: process
documents left to right, chunking then embedding-and-appending each one.
The pair returned is the final store together with the first provider error,
if any; on an error the loop stops (the Python exception propagates) and the
store keeps everything appended for the earlier documents. -/
def indexDocs {ε : Type} (embed : Embedder ε) :
    List Doc → List Entry → List Entry × Option ε
  | [], store => (store, none)
  | d :: rest, store =>
    match embedAndStore embed (chunkDoc d) store with
    | .error err => (store, some err)
    | .ok store2 => indexDocs embed rest store2

/-- The dot product `np.dot(v, q)` of two vectors. -/
def dot (v w : List ℚ) : ℚ :=
  (List.zipWith (· * ·) v w).sum

/-- The Euclidean norm `np.linalg.norm(v)`, that is `√(v·v)`. -/
noncomputable def norm (v : List ℚ) : ℝ :=
  Real.sqrt ((dot v v : ℚ) : ℝ)

/-- The score of a stored vector `v` against query vector `q`
(lines 209–212): `np.divide(dots, norms, where=norms != 0)` followed by
`scores[norms == 0] = 0`, i.e. cosine similarity with the convention that a
zero norm product yields score `0`. -/
noncomputable def score (v q : List ℚ) : ℝ :=
  if norm v * norm q = 0 then 0 else ((dot v q : ℚ) : ℝ) / (norm v * norm q)

/-- What the call `np.argsort(-scores)` (line 213) guarantees about its
index arrangement: index `i` may precede index `j` exactly when `i`'s score
is at least `j`'s, i.e. scores are non-increasing along the output.  The
source uses the default `kind='quicksort'`, which numpy documents as not
stable: nothing is specified about the relative order of equal scores, so
the relation carries no tie-break, and nothing proved below depends on how
a realization orders tied scores. -/
def argRel (s : List ℝ) (i j : ℕ) : Prop :=
  s.getD j 0 ≤ s.getD i 0

noncomputable instance argRelDec (s : List ℝ) : DecidableRel (argRel s) := fun _ _ => by
  unfold argRel
  infer_instance

instance argRelTotal (s : List ℝ) : IsTotal ℕ (argRel s) := by
  constructor
  intro i j
  exact le_total _ _

instance argRelTrans (s : List ℝ) : IsTrans ℕ (argRel s) := by
  constructor
  intro a b c hab hbc
  exact le_trans hbc hab

/-- The index sort `np.argsort(-scores)` (line 213): a permutation of the
indices `0, …, n-1` along which scores are non-increasing, realized here
with insertion sort.  Because the source's default-kind `argsort` leaves the
order of tied scores unspecified, only facts that are independent of the tie
order — being a permutation of all store positions, non-increasing scores,
and values on tie-free inputs — are proved about this realization. -/
noncomputable def argsortDesc (s : List ℝ) : List ℕ :=
  (List.range s.length).insertionSort (argRel s)

/-- The score list `scores` of `search`: one score per stored entry, in
store order. -/
noncomputable def searchScores (store : List Entry) (qv : List ℚ) : List ℝ :=
  store.map (fun en => score en.vector qv)

/-- A search-result dict, `{"content", "source", "title", "score"}`
(lines 217–222). -/
structure SearchResult where
  content : Text
  source : String
  title : String
  score : ℝ

/-- The result built for stored index `i` (lines 215–222): the entry's
metadata together with `scores[idx]`. -/
noncomputable def resultAt (store : List Entry) (s : List ℝ) (i : ℕ) :
    SearchResult :=
  ⟨(store.getD i default).content, (store.getD i default).source,
    (store.getD i default).title, s.getD i 0⟩

/-- The scoring-and-ranking core of `search` (lines 207–223), given the
query's embedding vector: score every stored entry, take the first `top_k`
indices of the descending argsort, and read off the corresponding results. -/
noncomputable def search (store : List Entry) (qv : List ℚ) (top_k : ℕ) :
    List SearchResult :=
  ((argsortDesc (searchScores store qv)).take top_k).map
    (resultAt store (searchScores store qv))

/-- The function `search(query, top_k)` (lines 205–223) with the store threaded
explicitly and the query embedding injected: an empty store returns `[]`
before any provider call; otherwise the query is embedded (a provider
failure propagates) and the core ranking runs.  The first component of the
result is the store as left by the call. -/
noncomputable def searchSt {ε : Type} (embedQ : Text → Except ε (List ℚ))
    (store : List Entry) (query : Text) (top_k : ℕ) :
    List Entry × Except ε (List SearchResult) :=
  if store.isEmpty then (store, .ok [])
  else
    match embedQ query with
    | .error err => (store, .error err)
    | .ok qv => (store, .ok (search store qv top_k))

/-- The overlap discipline between two consecutive chunks: the later chunk is
longer than `ov` and its first `ov` characters are the last `ov` characters of
the earlier chunk. -/
def overlapRel (ov : ℕ) (a b : Chunk) : Prop :=
  ov < b.content.length ∧
    b.content.take ov = a.content.drop (a.content.length - ov)

lemma chunkLoop_exit (text : Text) (src ttl : String) (cs ov fuel i idx : ℕ)
    (hf : 0 < fuel) (h : text.length ≤ i) :
    chunkLoop text src ttl cs ov fuel i idx = some [] := by
  obtain ⟨g, rfl⟩ : ∃ g, fuel = g + 1 := ⟨fuel - 1, by omega⟩
  simp only [chunkLoop, if_neg (Nat.not_lt.mpr h)]

lemma slice_drop_eq (text : Text) (i cs ov : ℕ) (hov : ov ≤ cs) :
    ((text.drop i).take cs).drop (cs - ov) = (text.drop (i + cs - ov)).take ov := by
  rw [List.drop_take, List.drop_drop]
  have e1 : i + (cs - ov) = i + cs - ov := by omega
  have e2 : cs - (cs - ov) = ov := by omega
  rw [e1, e2]

/-- Main loop invariant of `_chunk` for `overlap < chunk_size`: from any
in-range window start `i`, given enough fuel, the loop returns a non-empty
chunk list whose first chunk is the window at `i`, whose overlap-trimmed
concatenation is exactly the rest of the text, and whose consecutive chunks
obey the overlap discipline. -/
lemma chunkLoop_invariant (text : Text) (src ttl : String) (cs ov : ℕ) (hov : ov < cs) :
    ∀ fuel i idx, text.length - i < fuel → i < text.length →
      ∃ c l, chunkLoop text src ttl cs ov fuel i idx = some (c :: l) ∧
        c.content = (text.drop i).take (min (i + cs) text.length - i) ∧
        c.content ++ (l.map (fun d => d.content.drop ov)).flatten = text.drop i ∧
        List.Chain' (overlapRel ov) (c :: l) := by
  intro fuel
  induction fuel with
  | zero => intro i idx h _; exact absurd h (Nat.not_lt_zero _)
  | succ f ih =>
    intro i idx hfuel hi
    by_cases he : min (i + cs) text.length < text.length
    · -- The window stops short of the end: advance to `e - ov` and recurse.
      have hics : i + cs < text.length := by
        by_contra hcon
        push_neg at hcon
        rw [min_eq_right hcon] at he
        exact lt_irrefl _ he
      have hecs : min (i + cs) text.length = i + cs := min_eq_left (le_of_lt hics)
      have hi2lt : i + cs - ov < text.length := by omega
      have hfuel2 : text.length - (i + cs - ov) < f := by omega
      obtain ⟨c', l', hrec, hhead, hrecon, hchain⟩ := ih (i + cs - ov) (idx + 1) hfuel2 hi2lt
      have hclen : c'.content.length = min (i + cs - ov + cs) text.length - (i + cs - ov) := by
        rw [hhead, List.length_take, List.length_drop]
        omega
      have hovlen : ov < c'.content.length := by
        rw [hclen]
        omega
      refine ⟨⟨(text.drop i).take cs, src, ttl, idx⟩, c' :: l', ?_, ?_, ?_, ?_⟩
      · simp only [chunkLoop, if_pos hi, hecs]
        rw [if_pos hics, hrec]
        simp [Nat.add_sub_cancel_left]
      · rw [hecs, Nat.add_sub_cancel_left]
      · -- Overlap-trimmed concatenation reconstructs `text.drop i`.
        have h1 : c'.content.drop ov ++ (l'.map (fun d => d.content.drop ov)).flatten
            = text.drop (i + cs) := by
          have h2 := congrArg (List.drop ov) hrecon
          rw [List.drop_append_of_le_length (le_of_lt hovlen), List.drop_drop] at h2
          rw [h2]
          congr 1
          omega
        simp only [List.map_cons, List.flatten_cons]
        rw [← List.append_assoc, List.append_assoc ((text.drop i).take cs)]
        rw [h1, ← List.drop_drop, List.take_append_drop]
      · -- The overlap discipline holds between the new chunk and the rest.
        rw [List.chain'_cons]
        refine ⟨⟨hovlen, ?_⟩, hchain⟩
        have hm : ov ≤ min (i + cs - ov + cs) text.length - (i + cs - ov) := by
          rw [← hclen]
          exact le_of_lt hovlen
        have hctake : c'.content.take ov = (text.drop (i + cs - ov)).take ov := by
          rw [hhead, List.take_take, min_eq_left hm]
        have hlenc : ((text.drop i).take cs).length = cs := by
          rw [List.length_take, List.length_drop]
          omega
        show c'.content.take ov
            = ((text.drop i).take cs).drop (((text.drop i).take cs).length - ov)
        rw [hctake, hlenc, slice_drop_eq text i cs ov (le_of_lt hov)]
    · -- The window reaches the end of the text: emit the final chunk and stop.
      have hmin : min (i + cs) text.length = text.length :=
        le_antisymm (min_le_right _ _) (le_of_not_lt he)
      refine ⟨⟨(text.drop i).take (text.length - i), src, ttl, idx⟩, [], ?_, ?_, ?_, ?_⟩
      · simp only [chunkLoop, if_pos hi, if_neg he]
        rw [chunkLoop_exit text src ttl cs ov f text.length (idx + 1) (by omega) le_rfl]
        simp [hmin]
      · rw [hmin]
      · have hfull : (text.drop i).take (text.length - i) = text.drop i := by
          rw [← List.length_drop, List.take_length]
        simp [hfull]
      · exact List.chain'_singleton _

/-- C4: for every text and all parameters with `chunk_size > overlap ≥ 0`,
`_chunk` terminates: the window loop finishes within `len(text) + 1`
iterations (each iteration advances the window start by at least
`chunk_size - overlap ≥ 1`) and returns a finite chunk list. -/
theorem chunk_terminates (text : Text) (src ttl : String) (cs ov : ℕ)
    (hov : ov < cs) : (chunk text src ttl cs ov).isSome = true := by
  rcases Nat.eq_zero_or_pos text.length with h0 | hpos
  · unfold chunk
    rw [chunkLoop_exit text src ttl cs ov (text.length + 1) 0 0 (by omega) (by omega)]
    rfl
  · obtain ⟨c, l, hres, -, -, -⟩ :=
      chunkLoop_invariant text src ttl cs ov hov (text.length + 1) 0 0 (by omega) hpos
    unfold chunk
    rw [hres]
    rfl

/-- Witness for `chunk_terminates` at `text = "hello"`, `chunk_size = 4`,
`overlap = 1`. -/
theorem chunk_terminates_witness :
    1 < 4 ∧ (chunk "hello".toList "s" "t" 4 1).isSome = true :=
  ⟨by decide, chunk_terminates "hello".toList "s" "t" 4 1 (by decide)⟩

/-- C3: for every non-empty text and `chunk_size > overlap ≥ 0`, `_chunk`
returns a non-empty chunk list, and the first chunk's content followed by
every later chunk's content with its first `overlap` characters dropped
concatenates back to exactly the original text. -/
theorem chunk_reconstructs (text : Text) (src ttl : String) (cs ov : ℕ)
    (hne : text ≠ []) (hov : ov < cs) :
    ∃ c l, chunk text src ttl cs ov = some (c :: l) ∧
      c.content ++ (l.map (fun d => d.content.drop ov)).flatten = text := by
  have hpos : 0 < text.length := List.length_pos.mpr hne
  obtain ⟨c, l, hres, -, hrecon, -⟩ :=
    chunkLoop_invariant text src ttl cs ov hov (text.length + 1) 0 0 (by omega) hpos
  exact ⟨c, l, hres, by simpa using hrecon⟩

/-- Witness for `chunk_reconstructs` at `text = "abcdef"`, `chunk_size = 3`,
`overlap = 1` (chunks `"abc"`, `"cde"`, `"ef"`). -/
theorem chunk_reconstructs_witness :
    ("abcdef".toList ≠ []) ∧ 1 < 3 ∧
      ∃ c l, chunk "abcdef".toList "s" "t" 3 1 = some (c :: l) ∧
        c.content ++ (l.map (fun d => d.content.drop 1)).flatten = "abcdef".toList :=
  ⟨by decide, by decide, chunk_reconstructs "abcdef".toList "s" "t" 3 1 (by decide) (by decide)⟩

/-- C10: for every non-empty text and `chunk_size > overlap ≥ 0`, the chunk
list is non-empty and every chunk after the first — the final one included —
has content longer than `overlap` characters, its first `overlap` characters
equal to the last `overlap` characters of its predecessor. -/
theorem chunk_overlap_chain (text : Text) (src ttl : String) (cs ov : ℕ)
    (hne : text ≠ []) (hov : ov < cs) :
    ∃ l, chunk text src ttl cs ov = some l ∧ l ≠ [] ∧
      List.Chain' (overlapRel ov) l := by
  have hpos : 0 < text.length := List.length_pos.mpr hne
  obtain ⟨c, l, hres, -, -, hchain⟩ :=
    chunkLoop_invariant text src ttl cs ov hov (text.length + 1) 0 0 (by omega) hpos
  exact ⟨c :: l, hres, by simp, hchain⟩

/-- Witness for `chunk_overlap_chain` at `text = "1234567890"`,
`chunk_size = 4`, `overlap = 2` (chunks `"1234"`, `"3456"`, `"5678"`,
`"7890"`). -/
theorem chunk_overlap_chain_witness :
    ("1234567890".toList ≠ []) ∧ 2 < 4 ∧
      ∃ l, chunk "1234567890".toList "s" "t" 4 2 = some l ∧ l ≠ [] ∧
        List.Chain' (overlapRel 2) l :=
  ⟨by decide, by decide,
    chunk_overlap_chain "1234567890".toList "s" "t" 4 2 (by decide) (by decide)⟩

set_option maxRecDepth 100000 in
/-- C5: the two concrete chunking examples.  `_chunk("1234567890",
chunk_size=5, overlap=2)` yields exactly the contents
`["12345", "45678", "7890"]`, each chunk's first two characters equal to its
predecessor's last two; `_chunk("a"*1000, chunk_size=500, overlap=0)` yields
exactly two chunks of 500 characters with `chunk_index` 0 and 1. -/
theorem chunk_concrete_examples :
    ((chunkD "1234567890".toList "s" "t" 5 2).map Chunk.content
        = ["12345".toList, "45678".toList, "7890".toList]
      ∧ (((chunkD "1234567890".toList "s" "t" 5 2).zip
            (chunkD "1234567890".toList "s" "t" 5 2).tail).all
          (fun p => p.2.content.take 2 == p.1.content.drop (p.1.content.length - 2)))
          = true)
    ∧ ((chunkD (List.replicate 1000 'a') "s" "t" 500 0).map
          (fun c => c.content.length) = [500, 500]
      ∧ (chunkD (List.replicate 1000 'a') "s" "t" 500 0).map Chunk.chunk_index
          = [0, 1]) := by
  refine ⟨⟨by decide, by decide⟩, ⟨by decide, by decide⟩⟩

lemma indexDocs_ok_length {ε : Type} (embed : Embedder ε)
    (hlen : ∀ ts vs, embed ts = .ok vs → vs.length = ts.length) :
    ∀ (docs : List Doc) (store store2 : List Entry),
      indexDocs embed docs store = (store2, none) →
      store2.length = store.length + (docs.map (fun d => (chunkDoc d).length)).sum := by
  intro docs
  induction docs with
  | nil =>
    intro store store2 h
    simp only [indexDocs, Prod.mk.injEq] at h
    simp [← h.1]
  | cons d rest ih =>
    intro store store2 h
    simp only [indexDocs] at h
    rcases hm : embedAndStore embed (chunkDoc d) store with err | mid
    · rw [hm] at h
      simp at h
    · rw [hm] at h
      have hmid : mid.length = store.length + (chunkDoc d).length := by
        unfold embedAndStore at hm
        rcases he : embed ((chunkDoc d).map Chunk.content) with err | vs
        · rw [he] at hm
          simp at hm
        · rw [he] at hm
          simp only [Except.ok.injEq] at hm
          have hvs : vs.length = (chunkDoc d).length := by
            rw [hlen _ _ he, List.length_map]
          rw [← hm, List.length_append, List.length_zipWith, hvs, min_self]
      rw [ih mid store2 h, hmid]
      simp [Nat.add_assoc]

lemma indexDocs_fail_frame {ε : Type} (embed : Embedder ε) :
    ∀ (pre : List Doc) (bad : Doc) (post : List Doc) (store : List Entry) (err : ε),
      (indexDocs embed pre store).2 = none →
      embed ((chunkDoc bad).map Chunk.content) = .error err →
      indexDocs embed (pre ++ bad :: post) store
        = ((indexDocs embed pre store).1, some err) := by
  intro pre
  induction pre with
  | nil =>
    intro bad post store err hok hbad
    simp only [List.nil_append, indexDocs, embedAndStore, hbad]
  | cons d pre2 ih =>
    intro bad post store err hok hbad
    simp only [List.cons_append, indexDocs] at hok ⊢
    rcases hm : embedAndStore embed (chunkDoc d) store with e2 | mid
    · rw [hm] at hok
      simp at hok
    · rw [hm] at hok
      exact ih bad post mid err hok hbad

/-- C7: when `index` succeeds, the store grows by exactly the total chunk
count of all inputs; when the (per-document) embedding call fails on some
input, the chunks already appended for the earlier inputs remain — there is
no rollback — the store is exactly what processing the earlier inputs left,
and the inputs after the failing one are never processed. -/
theorem index_growth_and_partial_failure {ε : Type} (embed : Embedder ε)
    (hlen : ∀ ts vs, embed ts = .ok vs → vs.length = ts.length) :
    (∀ (docs : List Doc) (store store2 : List Entry),
        indexDocs embed docs store = (store2, none) →
        store2.length = store.length + (docs.map (fun d => (chunkDoc d).length)).sum)
    ∧ (∀ (pre : List Doc) (bad : Doc) (post : List Doc) (store : List Entry) (err : ε),
        (indexDocs embed pre store).2 = none →
        embed ((chunkDoc bad).map Chunk.content) = .error err →
        indexDocs embed (pre ++ bad :: post) store
          = ((indexDocs embed pre store).1, some err)) :=
  ⟨indexDocs_ok_length embed hlen, indexDocs_fail_frame embed⟩

/-- A concrete deterministic embedding provider for witnesses: fails exactly
when some input text is `"F"`, and otherwise embeds every text as the
one-dimensional vector holding its length. -/
def embedTest (ts : List Text) : Except String (List (List ℚ)) :=
  if ts.any (fun t => t = ['F']) then .error "boom"
  else .ok (ts.map (fun t => [(t.length : ℚ)]))

lemma embedTest_len : ∀ ts vs, embedTest ts = .ok vs → vs.length = ts.length := by
  intro ts vs h
  unfold embedTest at h
  split at h
  · exact absurd h (by simp)
  · simp only [Except.ok.injEq] at h
    rw [← h, List.length_map]

/-- An inline one-character document `"a"`. -/
def docA : Doc := ⟨['a'], "inline", "Inline Text"⟩

/-- An inline one-character document `"F"`, on which `embedTest` fails. -/
def docF : Doc := ⟨['F'], "inline", "Inline Text"⟩

/-- Witness for `index_growth_and_partial_failure`: indexing `["a"]` with
`embedTest` grows the empty store by one chunk, and indexing
`["a", "F", "a"]` stops at `"F"` with the first document's chunk kept. -/
theorem index_growth_witness :
    ([⟨['a'], "inline", "Inline Text", 0, [(1 : ℚ)]⟩] : List Entry).length
        = ([] : List Entry).length + ([docA].map (fun d => (chunkDoc d).length)).sum
    ∧ indexDocs embedTest ([docA] ++ docF :: [docA]) []
        = ((indexDocs embedTest [docA] []).1, some "boom") :=
  ⟨(index_growth_and_partial_failure embedTest embedTest_len).1 [docA] []
      [⟨['a'], "inline", "Inline Text", 0, [(1 : ℚ)]⟩] (by decide),
    (index_growth_and_partial_failure embedTest embedTest_len).2 [docA] docF [docA] []
      "boom" (by decide) (by rfl)⟩

/-- C9: ingestion is atomic per document — the embedding of all of a
document's chunks happens before any append, so when the provider fails on a
document, none of that document's chunks reaches the store: the call returns
with the store exactly as it was. -/
theorem index_atomic_per_doc {ε : Type} (embed : Embedder ε) (d : Doc)
    (rest : List Doc) (store : List Entry) (err : ε)
    (hbad : embed ((chunkDoc d).map Chunk.content) = .error err) :
    indexDocs embed (d :: rest) store = (store, some err) := by
  simp only [indexDocs, embedAndStore, hbad]

/-- Witness for `index_atomic_per_doc`: `embedTest` fails on `docF`, and
indexing `[docF, docA]` over a one-entry store returns that store untouched
with the provider error. -/
theorem index_atomic_witness :
    embedTest ((chunkDoc docF).map Chunk.content) = .error "boom"
    ∧ indexDocs embedTest [docF, docA] [⟨['z'], "inline", "Inline Text", 0, [(9 : ℚ)]⟩]
        = ([⟨['z'], "inline", "Inline Text", 0, [(9 : ℚ)]⟩], some "boom") :=
  ⟨by rfl,
    index_atomic_per_doc embedTest docF [docA]
      [⟨['z'], "inline", "Inline Text", 0, [(9 : ℚ)]⟩] "boom" (by rfl)⟩

lemma dot_replicate_zero (n : ℕ) (w : List ℚ) : dot (List.replicate n 0) w = 0 := by
  induction n generalizing w with
  | zero => simp [dot]
  | succ m ih =>
    cases w with
    | nil => simp [dot]
    | cons a ws =>
      have h := ih ws
      simp only [dot, List.replicate_succ, List.zipWith_cons_cons, List.sum_cons,
        zero_mul, zero_add] at h ⊢
      exact h

lemma norm_replicate_zero (n : ℕ) : norm (List.replicate n 0) = 0 := by
  rw [norm, dot_replicate_zero]
  simp

/-- C6: the score of every stored vector against every query is the cosine
similarity `dot(v, q) / (‖v‖·‖q‖)`, defined as `0` whenever either norm is
`0`; in particular an all-zero stored vector scores `0` against every query
(the division is never performed on a zero denominator). -/
theorem score_cosine_spec :
    (∀ v q : List ℚ, score v q =
        if norm v = 0 ∨ norm q = 0 then 0
        else ((dot v q : ℚ) : ℝ) / (norm v * norm q))
    ∧ (∀ (n : ℕ) (q : List ℚ), score (List.replicate n 0) q = 0) := by
  constructor
  · intro v q
    unfold score
    simp only [mul_eq_zero]
  · intro n q
    unfold score
    rw [norm_replicate_zero, zero_mul, if_pos rfl]

lemma argsortDesc_perm (s : List ℝ) :
    List.Perm (argsortDesc s) (List.range s.length) :=
  List.perm_insertionSort _ _

lemma argsortDesc_sorted (s : List ℝ) :
    List.Sorted (argRel s) (argsortDesc s) :=
  List.sorted_insertionSort _ _

lemma argsortDesc_length (s : List ℝ) : (argsortDesc s).length = s.length := by
  unfold argsortDesc
  rw [List.length_insertionSort, List.length_range]

lemma insertionSort_three {r : ℕ → ℕ → Prop} [DecidableRel r] (h01 : r 0 1)
    (h12 : r 1 2) : List.insertionSort r [0, 1, 2] = [0, 1, 2] := by
  simp [List.insertionSort, List.orderedInsert, h01, h12]

lemma searchScores_length (store : List Entry) (qv : List ℚ) :
    (searchScores store qv).length = store.length := by
  unfold searchScores
  rw [List.length_map]

/-- Facts about `search` that are independent of how `np.argsort` orders
tied scores (the source's default-kind `argsort` guarantees nothing about
ties): the output has `min top_k size` results and is the `top_k`-prefix of
the full ranking; its scores are non-increasing; the underlying index
arrangement is a permutation of all store positions; and on the tie-free
three-chunk example with stored vectors `[1,0]`, `[1/2,1/2]`, `[0,1]` and
query vector `[1,0]`, `search(query, top_k=2)` returns exactly the `[1,0]`
chunk then the `[1/2,1/2]` chunk with strictly descending scores. -/
theorem search_contract_facts :
    (∀ (store : List Entry) (qv : List ℚ) (k : ℕ),
        (search store qv k).length = min k store.length
        ∧ search store qv k = (search store qv store.length).take k
        ∧ ((search store qv k).map SearchResult.score).Sorted (· ≥ ·)
        ∧ List.Perm (argsortDesc (searchScores store qv)) (List.range store.length))
    ∧ ((search [⟨['A'], "inline", "Inline Text", 0, [1, 0]⟩,
          ⟨['B'], "inline", "Inline Text", 1, [1/2, 1/2]⟩,
          ⟨['C'], "inline", "Inline Text", 2, [0, 1]⟩] [1, 0] 2).map
            SearchResult.content = [['A'], ['B']]
      ∧ List.Chain' (· > ·)
          ((search [⟨['A'], "inline", "Inline Text", 0, [1, 0]⟩,
            ⟨['B'], "inline", "Inline Text", 1, [1/2, 1/2]⟩,
            ⟨['C'], "inline", "Inline Text", 2, [0, 1]⟩] [1, 0] 2).map
              SearchResult.score)) := by
  constructor
  · intro store qv k
    refine ⟨?_, ?_, ?_, ?_⟩
    · unfold search
      rw [List.length_map, List.length_take, argsortDesc_length, searchScores_length]
    · unfold search
      rw [← List.map_take, List.take_take]
      congr 1
      rw [List.take_eq_take, argsortDesc_length, searchScores_length]
      omega
    · unfold search
      rw [List.map_map]
      have hp : ((argsortDesc (searchScores store qv)).take k).Pairwise
          (argRel (searchScores store qv)) :=
        (argsortDesc_sorted _).sublist (List.take_sublist _ _)
      refine List.pairwise_map.mpr (hp.imp ?_)
      intro i j hij
      exact hij
    · rw [← searchScores_length store qv]
      exact argsortDesc_perm _
  · -- the concrete three-chunk example
    have hqnorm : norm [(1 : ℚ), 0] = 1 := by
      have hd : dot [(1 : ℚ), 0] [(1 : ℚ), 0] = 1 := by norm_num [dot]
      rw [norm, hd]
      norm_num
    have hbnorm : norm [(1 : ℚ)/2, 1/2] = Real.sqrt (1/2) := by
      have hd : dot [(1 : ℚ)/2, 1/2] [(1 : ℚ)/2, 1/2] = 1/2 := by norm_num [dot]
      rw [norm, hd]
      norm_num
    have hcnorm : norm [(0 : ℚ), 1] = 1 := by
      have hd : dot [(0 : ℚ), 1] [(0 : ℚ), 1] = 1 := by norm_num [dot]
      rw [norm, hd]
      norm_num
    have hsqrt_lt : Real.sqrt (1/2) < 1 := by
      have h := Real.sqrt_lt_sqrt (by norm_num : (0:ℝ) ≤ 1/2) (by norm_num : (1:ℝ)/2 < 1)
      simpa [Real.sqrt_one] using h
    have hsA : score [(1 : ℚ), 0] [1, 0] = 1 := by
      unfold score
      rw [hqnorm, if_neg (by norm_num)]
      have hd : dot [(1 : ℚ), 0] [1, 0] = 1 := by norm_num [dot]
      rw [hd]
      norm_num
    have hsB : score [(1 : ℚ)/2, 1/2] [1, 0] = Real.sqrt (1/2) := by
      unfold score
      rw [hbnorm, hqnorm, mul_one, if_neg (by positivity)]
      have hd : dot [(1 : ℚ)/2, 1/2] [1, 0] = 1/2 := by norm_num [dot]
      rw [hd]
      push_cast
      exact Real.div_sqrt
    have hsC : score [(0 : ℚ), 1] [1, 0] = 0 := by
      unfold score
      rw [hcnorm, hqnorm, if_neg (by norm_num)]
      have hd : dot [(0 : ℚ), 1] [1, 0] = 0 := by norm_num [dot]
      rw [hd]
      norm_num
    have hS : searchScores [⟨['A'], "inline", "Inline Text", 0, [1, 0]⟩,
        ⟨['B'], "inline", "Inline Text", 1, [1/2, 1/2]⟩,
        ⟨['C'], "inline", "Inline Text", 2, [0, 1]⟩] [1, 0]
        = [1, Real.sqrt (1/2), 0] := by
      unfold searchScores
      simp only [List.map_cons, List.map_nil]
      rw [hsA, hsB, hsC]
    have h01 : argRel [1, Real.sqrt (1/2), 0] 0 1 := by
      unfold argRel
      simp only [List.getD_cons_succ, List.getD_cons_zero]
      exact le_of_lt hsqrt_lt
    have h12 : argRel [1, Real.sqrt (1/2), 0] 1 2 := by
      unfold argRel
      simp only [List.getD_cons_succ, List.getD_cons_zero]
      exact Real.sqrt_nonneg _
    have heq3 : argsortDesc [1, Real.sqrt (1/2), 0] = [0, 1, 2] := by
      unfold argsortDesc
      have hr : List.range ([1, Real.sqrt (1/2), 0] : List ℝ).length = [0, 1, 2] := rfl
      rw [hr]
      exact insertionSort_three h01 h12
    constructor
    · unfold search
      rw [hS, heq3]
      rfl
    · unfold search
      rw [hS, heq3]
      show List.Chain' (· > ·) [(1 : ℝ), Real.sqrt (1/2)]
      exact List.chain'_pair.mpr hsqrt_lt

/-- C8: `search` never mutates the store — whatever the store, the query,
`top_k`, and the embedding outcome, the store after the call is exactly the
store before it (hence `size()` is unchanged). -/
theorem search_no_mutation {ε : Type} (embedQ : Text → Except ε (List ℚ))
    (store : List Entry) (query : Text) (top_k : ℕ) :
    (searchSt embedQ store query top_k).1 = store := by
  unfold searchSt
  split
  · rfl
  · rcases embedQ query with err | qv <;> rfl

/-- A query embedder that always succeeds with the vector `[1]`. -/
def embedQone (_q : Text) : Except String (List ℚ) := .ok [1]

/-- A query embedder that always fails. -/
def embedQbad (_q : Text) : Except String (List ℚ) := .error "boom"

/-- Counterexample to C2: the code validates nothing.  An empty query on an
empty store returns `[]` normally (no `InvalidArgument`), `top_k = 0 < 1` on
a non-empty store returns `[]` normally, and `_chunk` with
`chunk_size = 3 ≤ 5 = overlap` returns its chunk list normally for a text
that fits in one window — no error is raised in any of the three cases. -/
theorem no_invalid_argument_counterexample :
    searchSt embedQone ([] : List Entry) ([] : Text) 1 = ([], .ok [])
    ∧ searchSt embedQone [⟨['z'], "inline", "Inline Text", 0, [(1 : ℚ)]⟩] ['q'] 0
        = ([⟨['z'], "inline", "Inline Text", 0, [(1 : ℚ)]⟩], .ok [])
    ∧ chunk ['a', 'b'] "s" "t" 3 5 = some [⟨['a', 'b'], "s", "t", 0⟩] := by
  refine ⟨rfl, ?_, by rfl⟩
  unfold searchSt embedQone search
  rfl

/-- C2 as the code actually behaves: neither `search` nor `_chunk` validates
its arguments.  `search` with `top_k = 0` returns the empty result list with
no error whenever the query embeds; an empty store short-circuits to `[]`
for every query, the empty query included, without a provider call; the only
error `search` ever surfaces is the query-embedding failure itself; and
`_chunk` raises nothing for `chunk_size ≤ overlap` — with
`chunk_size = overlap` and a text longer than one window its loop never
terminates (every fuel bound is exhausted), while a text that fits in one
window is returned as a single chunk whatever `overlap` is. -/
theorem no_validation_behaviour {ε : Type} :
    (∀ (embedQ : Text → Except ε (List ℚ)) (store : List Entry) (q : Text) (qv : List ℚ),
        embedQ q = .ok qv → searchSt embedQ store q 0 = (store, .ok []))
    ∧ (∀ (embedQ : Text → Except ε (List ℚ)) (q : Text) (k : ℕ),
        searchSt embedQ ([] : List Entry) q k = ([], .ok []))
    ∧ (∀ (embedQ : Text → Except ε (List ℚ)) (store : List Entry) (q : Text) (k : ℕ)
        (err : ε), (searchSt embedQ store q k).2 = .error err → embedQ q = .error err)
    ∧ (∀ (text : Text) (src ttl : String) (cs : ℕ), cs < text.length →
        ∀ fuel idx, chunkLoop text src ttl cs cs fuel 0 idx = none)
    ∧ (∀ (text : Text) (src ttl : String) (cs ov : ℕ), 0 < text.length →
        text.length ≤ cs → chunk text src ttl cs ov = some [⟨text, src, ttl, 0⟩]) := by
  refine ⟨?_, ?_, ?_, ?_, ?_⟩
  · intro embedQ store q qv hq
    unfold searchSt
    split
    · next hst => rw [List.isEmpty_iff.mp hst]
    · rw [hq]
      unfold search
      rfl
  · intro embedQ q k
    rfl
  · intro embedQ store q k err h
    unfold searchSt at h
    split at h
    · simp at h
    · rcases hq : embedQ q with e2 | qv
      · rw [hq] at h
        have he : e2 = err := by simpa using h
        subst he
        rfl
      · rw [hq] at h
        simp at h
  · intro text src ttl cs hcs fuel
    induction fuel with
    | zero => intro idx; rfl
    | succ f ih =>
      intro idx
      have hpos : 0 < text.length := by omega
      simp only [chunkLoop, if_pos hpos, Nat.zero_add, min_eq_left (le_of_lt hcs),
        if_pos hcs, Nat.sub_self, ih (idx + 1)]
  · intro text src ttl cs ov hpos hfit
    unfold chunk
    obtain ⟨g, hg⟩ : ∃ g, text.length + 1 = g + 2 := ⟨text.length - 1, by omega⟩
    rw [hg]
    have hexit := chunkLoop_exit text src ttl cs ov (g + 1) text.length 1 (by omega) le_rfl
    conv_lhs => rw [chunkLoop]
    rw [if_pos hpos]
    simp only [Nat.zero_add, min_eq_right hfit]
    rw [if_neg (lt_irrefl text.length), hexit]
    simp [List.take_length]

/-- Witness for `no_validation_behaviour`, instantiating each clause at a
concrete input: the always-`[1]` embedder with `top_k = 0`, a search on the
empty store, the always-failing embedder surfacing its own error, the
`chunk_size = overlap = 2` loop on `"abc"` never finishing, and
`_chunk("ab", chunk_size=3, overlap=5)` returning one chunk. -/
theorem no_validation_behaviour_witness :
    searchSt embedQone [⟨['z'], "inline", "Inline Text", 0, [(1 : ℚ)]⟩] ['q'] 0
        = ([⟨['z'], "inline", "Inline Text", 0, [(1 : ℚ)]⟩], .ok [])
    ∧ searchSt embedQone ([] : List Entry) ['x'] 5 = ([], .ok [])
    ∧ embedQbad ['q'] = .error "boom"
    ∧ chunkLoop ['a', 'b', 'c'] "s" "t" 2 2 7 0 0 = none
    ∧ chunk ['a', 'b'] "s" "t" 3 5 = some [⟨['a', 'b'], "s", "t", 0⟩] :=
  ⟨(no_validation_behaviour (ε := String)).1 embedQone _ ['q'] [1] rfl,
    (no_validation_behaviour (ε := String)).2.1 embedQone ['x'] 5,
    (no_validation_behaviour (ε := String)).2.2.1 embedQbad
      [⟨['z'], "inline", "Inline Text", 0, [(1 : ℚ)]⟩] ['q'] 1 "boom" (by rfl),
    (no_validation_behaviour (ε := String)).2.2.2.1 ['a', 'b', 'c'] "s" "t" 2
      (by decide) 7 0,
    (no_validation_behaviour (ε := String)).2.2.2.2 ['a', 'b'] "s" "t" 3 5
      (by decide) (by decide)⟩

end KB
